import Mathlib

/-!
Verification development for the `aur::Aur` asynchronous request multiplexer
(`src/aur/aur.hh`).  The repository ships only the class header; the member
function bodies live in a translation unit that is not part of the sources.
Definitions below therefore come in two flavours:

* translated directly from the header (`ActiveRequests`, the `Aur` fields and
  their initializers, the constructor signature), and
* behavioural models whose doc comments start with `Modelled from the spec:`,
  for members the header only declares (`Wait`, `Cancel`, `TimerCallback`,
  `SocketCallback`, `OnCloneExit`, `SetMaxConnections`, `SetConnectTimeout`).

Pointer-valued handles (`CURL*`, `sd_event_source*`) are modelled as `Nat`
identifiers; C `long`/`int` values as `Int`.
-/

namespace Auracle

/-- Failure kinds of the error-handling design: transport, HTTP status,
parse, process (clone child exited non-zero or was killed), cancellation and
configuration failures. -/
inductive FailureKind : Type
  | transportError : FailureKind
  | httpStatusError : FailureKind
  | parseError : FailureKind
  | processError (status : Int) : FailureKind
  | cancellationError : FailureKind
  | configurationError : FailureKind
deriving DecidableEq, Repr

/-- Result type carried to every completion callback: either a success value
or a categorized failure (`StatusOr<T>` of the sources). -/
inductive StatusOr (α : Type) : Type
  | ok (val : α) : StatusOr α
  | err (e : FailureKind) : StatusOr α
deriving DecidableEq, Repr

/-- Response delivered for a clone request (`CloneResponse`).  Its payload is
irrelevant to the multiplexing core, so it is modelled as a unit-like
structure. -/
structure CloneResponse : Type where
deriving DecidableEq, Repr

/-- Tracker of live transfer handles and live event-loop registrations,
translated from `ActiveRequests` in `aur.hh` lines 82-101: two hash sets,
`curls_` and `event_sources_`. -/
structure ActiveRequests : Type where
  curls_ : Finset Nat
  event_sources_ : Finset Nat
deriving DecidableEq

namespace ActiveRequests

/-- The default-constructed tracker: both sets empty (`ActiveRequests() {}`). -/
def empty : ActiveRequests := ⟨∅, ∅⟩

/-- `void Add(CURL* curl) { curls_.insert(curl); }` -/
def addCurl (a : ActiveRequests) (c : Nat) : ActiveRequests :=
  { a with curls_ := insert c a.curls_ }

/-- `void Add(sd_event_source* event_source) { event_sources_.insert(event_source); }` -/
def addEventSource (a : ActiveRequests) (s : Nat) : ActiveRequests :=
  { a with event_sources_ := insert s a.event_sources_ }

/-- `void Remove(CURL* curl) { curls_.erase(curl); }` -/
def removeCurl (a : ActiveRequests) (c : Nat) : ActiveRequests :=
  { a with curls_ := a.curls_.erase c }

/-- `void Remove(sd_event_source* event_source) { event_sources_.erase(event_source); }` -/
def removeEventSource (a : ActiveRequests) (s : Nat) : ActiveRequests :=
  { a with event_sources_ := a.event_sources_.erase s }

/-- `bool IsEmpty() const { return curls_.empty() && event_sources_.empty(); }` -/
def isEmpty (a : ActiveRequests) : Bool :=
  a.curls_ = (∅ : Finset Nat) ∧ a.event_sources_ = (∅ : Finset Nat)

end ActiveRequests

/-- The `Aur` fields relevant to configuration, translated from `aur.hh`:
`const std::string baseurl_;` and `long connect_timeout_ = 10;`. -/
structure Aur : Type where
  baseurl_ : String
  connect_timeout_ : Int
deriving DecidableEq, Repr

/-- The constructor `explicit Aur(const std::string& baseurl)`: `baseurl_` is
initialized from the argument and `connect_timeout_` takes its in-class
initializer `= 10` (`aur.hh` line 124). -/
def Aur.construct (baseurl : String) : Aur := ⟨baseurl, 10⟩

/-- Modelled from the spec: the body of `Aur::SetConnectTimeout` is not in the
repository (only declared, `aur.hh` lines 38-40).  Per the spec it sets the
per-connection timeout to the caller-supplied value, with 0 meaning no
timeout. -/
def Aur.setConnectTimeout (a : Aur) (timeout : Int) : Aur :=
  { a with connect_timeout_ := timeout }

/-- Outcome of the clone child process as reported by the child-exit watch:
either a normal exit with a status code or termination by a signal. -/
inductive CloneOutcome : Type
  | exited (status : Int) : CloneOutcome
  | signaled (sig : Int) : CloneOutcome
deriving DecidableEq, Repr

/-- Modelled from the spec: the body of `Aur::OnCloneExit` is not in the
repository (only declared, `aur.hh` lines 119-120).  Per the spec, on child
termination the exit status is inspected: zero exit gives a success
`CloneResponse`; non-zero or abnormal termination gives a `ProcessError`
failure carrying the captured status. -/
def onCloneExit : CloneOutcome → StatusOr CloneResponse
  | .exited s => if s = 0 then .ok ⟨⟩ else .err (.processError s)
  | .signaled sig => .err (.processError sig)

/-- State of the event loop's one-shot timer and defer source as driven by the
timeout-change notifications: `armed` holds the pending one-shot delay in
milliseconds when armed, and `deferredAdvance` records that an immediate
advance is scheduled for the next loop iteration. -/
structure LoopTimer : Type where
  armed : Option Int
  deferredAdvance : Bool
deriving DecidableEq, Repr

/-- Modelled from the spec: the body of `Aur::TimerCallback` is not in the
repository (only declared, `aur.hh` line 116).  Per the spec, a timeout value
below 0 disarms the one-shot timer, a value of 0 schedules an immediate
advance on the next loop iteration, and a positive value arms a one-shot timer
for that many milliseconds, replacing any previously armed timer. -/
def timerCallback (timeout_ms : Int) (t : LoopTimer) : LoopTimer :=
  if timeout_ms < 0 then { t with armed := none }
  else if timeout_ms = 0 then { t with deferredAdvance := true }
  else { t with armed := some timeout_ms }

/-- State of one `Wait()` dispatch loop over the pending operations:
`pending` holds the identifiers of the queued-but-uncompleted operations,
`invoked` records every callback invocation so far (most recent first), and
`cancelled` is the cooperative-cancellation flag raised when a callback
returns non-zero. -/
structure MuxState : Type where
  pending : List Nat
  invoked : List Nat
  cancelled : Bool
deriving DecidableEq, Repr

/-- Modelled from the spec: the bodies of `Aur::FinishRequest`,
`Aur::ProcessDoneEvents` and `Aur::Cancel` are not in the repository (only
declared, `aur.hh` lines 77-80).  Per the spec, a drained completion for
operation `i` is dispatched by invoking its bound callback exactly once and
releasing the operation from the active set; a completion for an operation no
longer pending is never advanced again; once cancellation has been triggered
no further callback runs; and a callback returning non-zero triggers
`Cancel`, which deregisters every pending operation without invoking its
callback.  `cb i` is the return value of operation `i`'s bound callback. -/
def dispatch (cb : Nat → Int) (s : MuxState) (i : Nat) : MuxState :=
  if s.cancelled then s
  else if i ∈ s.pending then
    if cb i = 0 then ⟨s.pending.erase i, i :: s.invoked, false⟩
    else ⟨[], i :: s.invoked, true⟩
  else s

/-- Modelled from the spec: the body of `Aur::Wait` is not in the repository
(only declared, `aur.hh` lines 66-68).  `Wait` runs the event loop,
dispatching the completions the engine reports ready in engine-delivery order
(`sched`), until the active set drains. -/
def runWait (cb : Nat → Int) (s : MuxState) : List Nat → MuxState
  | [] => s
  | e :: es => runWait cb (dispatch cb s e) es

/-- Modelled from the spec: `Wait` returns non-zero exactly when cancellation
was triggered by some callback, and zero otherwise. -/
def waitReturn (s : MuxState) : Int :=
  if s.cancelled then 1 else 0

/-- Queueing `ops` before a single `Wait()` call starts the dispatch loop
with all of them pending, no callback yet invoked, and no cancellation. -/
def initMux (ops : List Nat) : MuxState := ⟨ops, [], false⟩

/-- Modelled from the spec: state of the transfer engine adapter under the
concurrency ceiling configured by `Aur::SetMaxConnections` (declared at
`aur.hh` lines 34-36; body not in the repository).  `maxConn` is the ceiling
(0 meaning unlimited), `registered` the transfer handles currently registered
with the engine, and `waiting` the transfers held back until a slot frees
up. -/
structure Adapter : Type where
  maxConn : Nat
  registered : Finset Nat
  waiting : List Nat
deriving DecidableEq

/-- Modelled from the spec: `SetMaxConnections(n)` configures the adapter's
concurrency ceiling; 0 means unlimited. -/
def Adapter.setMaxConnections (a : Adapter) (k : Nat) : Adapter :=
  { a with maxConn := k }

/-- The adapter of a fresh `Aur` instance: nothing registered, nothing
waiting. -/
def Adapter.init (k : Nat) : Adapter := ⟨k, ∅, []⟩

/-- Modelled from the spec: adding a transfer registers it with the engine
immediately when the ceiling is unlimited or not yet reached; otherwise the
transfer waits for a slot. -/
def Adapter.add (a : Adapter) (i : Nat) : Adapter :=
  if a.maxConn = 0 ∨ a.registered.card < a.maxConn then
    { a with registered := insert i a.registered }
  else
    { a with waiting := a.waiting ++ [i] }

/-- Modelled from the spec: finishing a transfer deregisters it from the
engine and, when a slot is now free, promotes the oldest waiting transfer. -/
def Adapter.finish (a : Adapter) (i : Nat) : Adapter :=
  match a.waiting with
  | [] => { a with registered := a.registered.erase i }
  | j :: rest =>
    if a.maxConn = 0 ∨ (a.registered.erase i).card < a.maxConn then
      { a with registered := insert j (a.registered.erase i), waiting := rest }
    else { a with registered := a.registered.erase i }

/-- One adapter-facing event during a `Wait()` call: a transfer is added, or
a transfer completes. -/
inductive AdapterOp : Type
  | add (i : Nat) : AdapterOp
  | finish (i : Nat) : AdapterOp
deriving DecidableEq, Repr

/-- Runs a sequence of adapter events. -/
def Adapter.run (a : Adapter) : List AdapterOp → Adapter
  | [] => a
  | .add i :: ops => (a.add i).run ops
  | .finish i :: ops => (a.finish i).run ops

/-- Modelled from the spec: the translation table between engine-level socket
descriptors and loop-level descriptors kept by the event-loop bridge (the
field `translate_fds_` is declared at `aur.hh` line 129; the code updating it
is not in the repository).  Per the spec it is an explicit bidirectional
lookup table: `toLoop` maps an engine-level descriptor paired with its
loop-level descriptor, `toEngine` the reverse direction, and both directions
are updated together on every watch registration and removal. -/
structure TranslateFds : Type where
  toLoop : List (Int × Int)
  toEngine : List (Int × Int)
deriving DecidableEq, Repr

/-- The empty translation table of a fresh bridge. -/
def TranslateFds.empty : TranslateFds := ⟨[], []⟩

/-- Modelled from the spec: registering a watch for engine-level descriptor
`s` whose loop-level descriptor is `fd` records the association in both
directions together. -/
def TranslateFds.registerPair (t : TranslateFds) (s fd : Int) : TranslateFds :=
  ⟨(s, fd) :: t.toLoop, (fd, s) :: t.toEngine⟩

/-- Modelled from the spec: removing the watch for engine-level descriptor
`s` with loop-level descriptor `fd` drops the association from both
directions together. -/
def TranslateFds.removePair (t : TranslateFds) (s fd : Int) : TranslateFds :=
  ⟨t.toLoop.filter (fun p => decide (p ≠ (s, fd))),
   t.toEngine.filter (fun p => decide (p ≠ (fd, s)))⟩

/-- One update of the translation table: a watch registration or removal. -/
inductive FdOp : Type
  | registerPair (s fd : Int) : FdOp
  | removePair (s fd : Int) : FdOp
deriving DecidableEq, Repr

/-- Runs a sequence of translation-table updates. -/
def TranslateFds.run (t : TranslateFds) : List FdOp → TranslateFds
  | [] => t
  | .registerPair s fd :: ops => (t.registerPair s fd).run ops
  | .removePair s fd :: ops => (t.removePair s fd).run ops

/-- The two directions of the translation table agree: `(s, fd)` is recorded
engine-to-loop exactly when `(fd, s)` is recorded loop-to-engine. -/
def TranslateFds.Sync (t : TranslateFds) : Prop :=
  ∀ s fd : Int, (s, fd) ∈ t.toLoop ↔ (fd, s) ∈ t.toEngine

/-- Modelled from the spec: the watch table kept in `active_io_` (field
declared at `aur.hh` line 128; the code updating it, `Aur::SocketCallback`,
is not in the repository).  Entries pair a socket descriptor with its
currently requested interest mask (0 meaning none).  Per the spec, on a
socket-interest change: a descriptor with no existing watch gets one
registered; a descriptor that already has one gets it re-registered with the
updated interest; interest 0 deregisters and drops the watch.  `watchUpdate`
is the per-entry re-registration step. -/
def watchUpdate (fd : Int) (interest : Nat) : Int × Nat → Int × Nat :=
  fun p => if p.1 = fd then (fd, interest) else p

/-- Modelled from the spec: applies one socket-interest change for descriptor
`fd` to the watch table (see `watchUpdate` above for the table layout). -/
def setWatch (tbl : List (Int × Nat)) (fd : Int) (interest : Nat) : List (Int × Nat) :=
  if interest = 0 then
    tbl.filter (fun p => decide (p.1 ≠ fd))
  else if tbl.any (fun p => decide (p.1 = fd)) then
    tbl.map (watchUpdate fd interest)
  else
    (fd, interest) :: tbl

/-! Theorems -/

/-- C9: a freshly constructed `Aur` on which `SetConnectTimeout` was never
called has a per-connection connect timeout of 10 seconds; since 0 means no
timeout, the timeout is not disabled by default; and it becomes the
caller-supplied value once `SetConnectTimeout` is invoked. -/
theorem default_connect_timeout_ten_seconds (u : String) (t : Int) :
    (Aur.construct u).connect_timeout_ = 10 ∧
    (Aur.construct u).connect_timeout_ ≠ 0 ∧
    ((Aur.construct u).setConnectTimeout t).connect_timeout_ = t := by
  refine ⟨rfl, ?_, rfl⟩
  show (10 : Int) ≠ 0
  decide

/-- C10: `ActiveRequests::Remove` is idempotent and total for both transfer
handles and event-source handles: removing an untracked handle leaves the
tracker unchanged, and removing the same handle twice produces the same
state as removing it once. -/
theorem active_requests_remove_idempotent_total (a : ActiveRequests) (c s : Nat) :
    (c ∉ a.curls_ → a.removeCurl c = a) ∧
    ((a.removeCurl c).removeCurl c = a.removeCurl c) ∧
    (s ∉ a.event_sources_ → a.removeEventSource s = a) ∧
    ((a.removeEventSource s).removeEventSource s = a.removeEventSource s) := by
  obtain ⟨cs, es⟩ := a
  refine ⟨fun h => ?_, ?_, fun h => ?_, ?_⟩ <;>
    simp_all [ActiveRequests.removeCurl, ActiveRequests.removeEventSource,
      Finset.erase_eq_self, Finset.erase_idem]

/-- Witness for C10 at a concrete tracker. -/
theorem active_requests_remove_witness :
    ((ActiveRequests.empty.addCurl 1).removeCurl 3 = ActiveRequests.empty.addCurl 1) ∧
    (((ActiveRequests.empty.addCurl 1).removeCurl 1).removeCurl 1 =
      (ActiveRequests.empty.addCurl 1).removeCurl 1) ∧
    ((ActiveRequests.empty.addCurl 1).removeEventSource 4 = ActiveRequests.empty.addCurl 1) :=
  ⟨(active_requests_remove_idempotent_total (ActiveRequests.empty.addCurl 1) 3 4).1 (by decide),
   (active_requests_remove_idempotent_total (ActiveRequests.empty.addCurl 1) 1 4).2.1,
   (active_requests_remove_idempotent_total (ActiveRequests.empty.addCurl 1) 3 4).2.2.1 (by decide)⟩

/-- C4: a clone completion is a success `Response` exactly when the child
exited normally with status 0; a non-zero exit status yields a
`ProcessError` carrying that status, and abnormal termination by a signal
yields a `ProcessError` carrying the captured status. -/
theorem clone_exit_status_determines_result (s sig : Int) (oc : CloneOutcome) :
    (onCloneExit (.exited s) = if s = 0 then .ok ⟨⟩ else .err (.processError s)) ∧
    (onCloneExit (.signaled sig) = .err (.processError sig)) ∧
    ((∃ r, onCloneExit oc = .ok r) ↔ oc = .exited 0) := by
  refine ⟨rfl, rfl, ?_⟩
  cases oc with
  | exited s' =>
    by_cases hs : s' = 0
    · subst hs
      refine iff_of_true ⟨⟨⟩, ?_⟩ rfl
      simp [onCloneExit]
    · simp [onCloneExit, hs]
  | signaled sig' =>
    simp [onCloneExit]

/-- C6: on a timeout-change notification, a value below 0 disarms the
one-shot timer, a value of 0 schedules an immediate advance on the next loop
iteration, and a positive value arms a one-shot timer for that many
milliseconds; in the positive case the armed value does not depend on any
previously armed timer (it is replaced). -/
theorem timer_callback_cases (ms : Int) (t t' : LoopTimer) :
    (ms < 0 → timerCallback ms t = { t with armed := none }) ∧
    (ms = 0 → timerCallback ms t = { t with deferredAdvance := true }) ∧
    (0 < ms → timerCallback ms t = { t with armed := some ms } ∧
      (timerCallback ms t).armed = (timerCallback ms t').armed) := by
  refine ⟨fun h => ?_, fun h => ?_, fun h => ⟨?_, ?_⟩⟩
  · simp only [timerCallback]
    rw [if_pos h]
  · simp only [timerCallback]
    rw [if_neg (by omega), if_pos h]
  · simp only [timerCallback]
    rw [if_neg (by omega), if_neg (by omega)]
  · simp only [timerCallback]
    rw [if_neg (by omega), if_neg (by omega), if_neg (by omega), if_neg (by omega)]

/-- Witness for C6 at the three concrete notification values -1, 0 and 9. -/
theorem timer_callback_witness :
    timerCallback (-1) ⟨some 7, false⟩ = ⟨none, false⟩ ∧
    timerCallback 0 ⟨some 7, false⟩ = ⟨some 7, true⟩ ∧
    timerCallback 9 ⟨some 7, false⟩ = ⟨some 9, false⟩ := by
  refine ⟨?_, ?_, ?_⟩
  · exact (timer_callback_cases (-1) ⟨some 7, false⟩ ⟨none, true⟩).1 (by decide)
  · exact (timer_callback_cases 0 ⟨some 7, false⟩ ⟨none, true⟩).2.1 (by decide)
  · exact ((timer_callback_cases 9 ⟨some 7, false⟩ ⟨none, true⟩).2.2 (by decide)).1

/-- Registering a pair keeps the two directions of the translation table in
sync. -/
theorem TranslateFds.Sync.registerPair {t : TranslateFds} (h : t.Sync) (s fd : Int) :
    (t.registerPair s fd).Sync := by
  intro s' fd'
  simp only [TranslateFds.registerPair, List.mem_cons, Prod.mk.injEq]
  rw [h s' fd']
  tauto

/-- Removing a pair keeps the two directions of the translation table in
sync. -/
theorem TranslateFds.Sync.removePair {t : TranslateFds} (h : t.Sync) (s fd : Int) :
    (t.removePair s fd).Sync := by
  intro s' fd'
  simp only [TranslateFds.removePair, List.mem_filter, decide_eq_true_eq, ne_eq,
    Prod.mk.injEq]
  rw [h s' fd']
  tauto

/-- C7: starting from the empty translation table, after any sequence of
watch registrations and removals the engine-to-loop and loop-to-engine
directions agree on every pair of descriptors: the table is genuinely
bidirectional, with both directions updated together, and no identity between
the two descriptor spaces is ever assumed. -/
theorem translate_fds_bidirectional_sync (ops : List FdOp) :
    (TranslateFds.empty.run ops).Sync := by
  have hrun : ∀ (os : List FdOp) (t : TranslateFds), t.Sync → (t.run os).Sync := by
    intro os
    induction os with
    | nil => intro t ht; exact ht
    | cons op os ih =>
      intro t ht
      cases op with
      | registerPair s fd => exact ih _ (ht.registerPair s fd)
      | removePair s fd => exact ih _ (ht.removePair s fd)
  refine hrun ops TranslateFds.empty ?_
  intro s fd
  simp [TranslateFds.empty]

/-- Adding a transfer never changes the configured ceiling. -/
theorem Adapter.add_maxConn (a : Adapter) (i : Nat) : (a.add i).maxConn = a.maxConn := by
  unfold Adapter.add
  split <;> rfl

/-- Finishing a transfer never changes the configured ceiling. -/
theorem Adapter.finish_maxConn (a : Adapter) (i : Nat) : (a.finish i).maxConn = a.maxConn := by
  unfold Adapter.finish
  cases hw : a.waiting with
  | nil => rfl
  | cons j rest =>
    simp only
    split <;> rfl

/-- The concurrency ceiling is respected by one `add` step. -/
theorem Adapter.add_card_le {a : Adapter} (i : Nat) (hk : 0 < a.maxConn)
    (hb : a.registered.card ≤ a.maxConn) : ((a.add i).registered).card ≤ a.maxConn := by
  unfold Adapter.add
  split
  · rename_i hcond
    have hlt : a.registered.card < a.maxConn := by
      rcases hcond with h0 | h
      · omega
      · exact h
    have hins := Finset.card_insert_le i a.registered
    simp only
    omega
  · simpa using hb

/-- The concurrency ceiling is respected by one `finish` step. -/
theorem Adapter.finish_card_le {a : Adapter} (i : Nat) (hk : 0 < a.maxConn)
    (hb : a.registered.card ≤ a.maxConn) : ((a.finish i).registered).card ≤ a.maxConn := by
  unfold Adapter.finish
  have herase : (a.registered.erase i).card ≤ a.registered.card := Finset.card_erase_le
  cases hw : a.waiting with
  | nil =>
    simp only
    omega
  | cons j rest =>
    simp only
    split
    · rename_i hcond
      have hlt : (a.registered.erase i).card < a.maxConn := by
        rcases hcond with h0 | h
        · omega
        · exact h
      have hins := Finset.card_insert_le j (a.registered.erase i)
      simp only
      omega
    · simp only
      omega

/-- The concurrency ceiling is respected along any sequence of adapter
events. -/
theorem Adapter.run_card_le {a : Adapter} (ops : List AdapterOp) (hk : 0 < a.maxConn)
    (hb : a.registered.card ≤ a.maxConn) : ((a.run ops).registered).card ≤ a.maxConn := by
  induction ops generalizing a with
  | nil => exact hb
  | cons op ops ih =>
    cases op with
    | add i =>
      have h1 := Adapter.add_maxConn a i
      have := ih (a := a.add i) (by omega) (h1 ▸ Adapter.add_card_le i hk hb)
      simpa [Adapter.run, h1] using this
    | finish i =>
      have h1 := Adapter.finish_maxConn a i
      have := ih (a := a.finish i) (by omega) (h1 ▸ Adapter.finish_card_le i hk hb)
      simpa [Adapter.run, h1] using this

/-- C5: after configuring the ceiling to `K > 0` on a fresh adapter, no
sequence of transfer additions and completions ever leaves more than `K`
transfer handles simultaneously registered with the engine; with the ceiling
at 0, an added transfer is always registered immediately and nothing is made
to wait (no limit). -/
theorem max_connections_bounds_registered_transfers (k : Nat) (ops : List AdapterOp)
    (a : Adapter) (i : Nat) :
    (0 < k → ((((Adapter.init 0).setMaxConnections k).run ops).registered).card ≤ k) ∧
    (a.maxConn = 0 →
      (a.add i).registered = insert i a.registered ∧ (a.add i).waiting = a.waiting) := by
  constructor
  · intro hk
    exact Adapter.run_card_le ops hk (by simp [Adapter.init, Adapter.setMaxConnections])
  · intro h0
    unfold Adapter.add
    rw [if_pos (Or.inl h0)]
    exact ⟨rfl, rfl⟩

/-- Witness for C5: ceiling 1, three adds and one completion; and an
unlimited adapter registering immediately. -/
theorem max_connections_witness :
    (((((Adapter.init 0).setMaxConnections 1).run
        [AdapterOp.add 3, AdapterOp.add 4, AdapterOp.finish 3]).registered).card ≤ 1) ∧
    ((Adapter.init 0).add 7).registered = insert 7 (Adapter.init 0).registered :=
  ⟨(max_connections_bounds_registered_transfers 1
      [AdapterOp.add 3, AdapterOp.add 4, AdapterOp.finish 3] (Adapter.init 0) 7).1 (by decide),
   ((max_connections_bounds_registered_transfers 1 [] (Adapter.init 0) 7).2 rfl).1⟩

/-- The per-entry re-registration step fixes its own output. -/
theorem watchUpdate_idem (fd : Int) (interest : Nat) (p : Int × Nat) :
    watchUpdate fd interest (watchUpdate fd interest p) = watchUpdate fd interest p := by
  unfold watchUpdate
  by_cases hp : p.1 = fd <;> simp [hp]

/-- Applying the same socket-interest change twice in a row leaves the watch
table exactly as after a single application. -/
theorem setWatch_idem (tbl : List (Int × Nat)) (fd : Int) (interest : Nat) :
    setWatch (setWatch tbl fd interest) fd interest = setWatch tbl fd interest := by
  by_cases hi : interest = 0
  · subst hi
    simp only [setWatch, eq_self_iff_true, if_true]
    rw [List.filter_filter]
    simp only [Bool.and_self]
  · simp only [setWatch, if_neg hi]
    by_cases hany : tbl.any (fun p => decide (p.1 = fd)) = true
    · rw [if_pos hany]
      obtain ⟨p, hp, hpfd⟩ := List.any_eq_true.mp hany
      have hany' : (tbl.map (watchUpdate fd interest)).any (fun p => decide (p.1 = fd)) = true := by
        refine List.any_eq_true.mpr ⟨watchUpdate fd interest p, List.mem_map_of_mem _ hp, ?_⟩
        simp only [decide_eq_true_eq] at hpfd ⊢
        simp [watchUpdate, hpfd]
      rw [if_pos hany']
      rw [List.map_map]
      exact List.map_congr_left fun q _ => watchUpdate_idem fd interest q
    · rw [if_neg hany]
      have hhead : (((fd, interest) :: tbl).any (fun p => decide (p.1 = fd))) = true := by
        simp
      rw [if_pos hhead]
      have hmap : tbl.map (watchUpdate fd interest) = tbl := by
        have hall := List.any_eq_false.mp (Bool.not_eq_true _ ▸ hany)
        calc tbl.map (watchUpdate fd interest) = tbl.map id := by
              refine List.map_congr_left fun q hq => ?_
              have : q.1 ≠ fd := by simpa using hall q hq
              simp [watchUpdate, this]
          _ = tbl := List.map_id tbl
      simp only [List.map_cons, hmap]
      congr 1
      simp [watchUpdate]

/-- Counting the watches of descriptor `fd` is counting `fd` among the
table's keys. -/
theorem countP_key_eq_count (tbl : List (Int × Nat)) (fd : Int) :
    tbl.countP (fun p => decide (p.1 = fd)) = (tbl.map Prod.fst).count fd := by
  rw [List.count_eq_countP, List.countP_map]
  refine List.countP_congr fun p hp => ?_
  simp [Function.comp]

/-- After one socket-interest change with non-none interest on a table with
no duplicate keys, descriptor `fd` has exactly one active watch. -/
theorem setWatch_countP_key (tbl : List (Int × Nat)) (fd : Int) (interest : Nat)
    (hnd : (tbl.map Prod.fst).Nodup) (hi : interest ≠ 0) :
    (setWatch tbl fd interest).countP (fun p => decide (p.1 = fd)) = 1 := by
  simp only [setWatch, if_neg hi]
  by_cases hany : tbl.any (fun p => decide (p.1 = fd)) = true
  · rw [if_pos hany]
    obtain ⟨p, hp, hpfd⟩ := List.any_eq_true.mp hany
    simp only [decide_eq_true_eq] at hpfd
    have h1 : (tbl.map (watchUpdate fd interest)).countP (fun p => decide (p.1 = fd)) =
        tbl.countP (fun p => decide (p.1 = fd)) := by
      rw [List.countP_map]
      refine List.countP_congr fun q hq => ?_
      by_cases hqfd : q.1 = fd <;> simp [Function.comp, watchUpdate, hqfd]
    rw [h1, countP_key_eq_count]
    refine List.count_eq_one_of_mem hnd ?_
    exact List.mem_map.mpr ⟨p, hp, hpfd⟩
  · rw [if_neg hany]
    have hall := List.any_eq_false.mp (Bool.not_eq_true _ ▸ hany)
    rw [List.countP_cons_of_pos _ _ (by simp)]
    have : tbl.countP (fun p => decide (p.1 = fd)) = 0 :=
      List.countP_eq_zero.mpr fun q hq => by simpa using hall q hq
    omega

/-- C8: socket-interest registration is idempotent: issuing the same
fd/interest change twice in a row yields the same watch table as issuing it
once, and (for a table without duplicate keys and a non-none interest)
exactly one active watch for that descriptor remains, whether the change was
issued once or twice.  Recording the resulting event source in the active
set (`ActiveRequests::Add`) is idempotent as well. -/
theorem socket_interest_registration_idempotent (tbl : List (Int × Nat)) (fd : Int)
    (interest : Nat) (a : ActiveRequests) (s : Nat) :
    (setWatch (setWatch tbl fd interest) fd interest = setWatch tbl fd interest) ∧
    ((tbl.map Prod.fst).Nodup → interest ≠ 0 →
      (setWatch (setWatch tbl fd interest) fd interest).countP (fun p => decide (p.1 = fd)) = 1 ∧
      (setWatch tbl fd interest).countP (fun p => decide (p.1 = fd)) = 1) ∧
    ((a.addEventSource s).addEventSource s = a.addEventSource s) := by
  refine ⟨setWatch_idem tbl fd interest, fun hnd hi => ?_, ?_⟩
  · rw [setWatch_idem tbl fd interest]
    exact ⟨setWatch_countP_key tbl fd interest hnd hi, setWatch_countP_key tbl fd interest hnd hi⟩
  · simp [ActiveRequests.addEventSource, Finset.insert_idem]

/-- Witness for C8 at a concrete one-entry table. -/
theorem socket_interest_witness :
    (setWatch (setWatch [((4 : Int), 1)] 5 3) 5 3 = setWatch [((4 : Int), 1)] 5 3) ∧
    (setWatch (setWatch [((4 : Int), 1)] 5 3) 5 3).countP (fun p => decide (p.1 = 5)) = 1 := by
  have h := socket_interest_registration_idempotent [((4 : Int), 1)] 5 3
    (ActiveRequests.empty.addEventSource 2) 2
  exact ⟨h.1, (h.2.1 (by decide) (by decide)).1⟩

/-- After cancellation, dispatching a completion invokes no callback and
changes nothing. -/
theorem dispatch_of_cancelled {cb : Nat → Int} {s : MuxState} (h : s.cancelled = true)
    (i : Nat) : dispatch cb s i = s := by
  simp [dispatch, h]

/-- After cancellation, the rest of the dispatch loop changes nothing. -/
theorem runWait_of_cancelled {cb : Nat → Int} {s : MuxState} (h : s.cancelled = true)
    (es : List Nat) : runWait cb s es = s := by
  induction es with
  | nil => rfl
  | cons e es ih =>
    simp only [runWait]
    rw [dispatch_of_cancelled h]
    exact ih

/-- Dispatching never adds a pending operation. -/
theorem dispatch_pending_subset (cb : Nat → Int) (s : MuxState) (i : Nat) :
    (dispatch cb s i).pending ⊆ s.pending := by
  by_cases hc : s.cancelled = true
  · rw [dispatch_of_cancelled hc]
    exact fun x hx => hx
  · by_cases hm : i ∈ s.pending
    · by_cases h0 : cb i = 0
      · have hd : dispatch cb s i = ⟨s.pending.erase i, i :: s.invoked, false⟩ := by
          simp [dispatch, hc, hm, h0]
        rw [hd]
        exact List.erase_subset i s.pending
      · have hd : dispatch cb s i = ⟨[], i :: s.invoked, true⟩ := by
          simp [dispatch, hc, hm, h0]
        rw [hd]
        exact List.nil_subset _
    · have hd : dispatch cb s i = s := by
        rw [dispatch, if_neg (by simp [hc]), if_neg hm]
      rw [hd]
      exact fun x hx => hx

/-- The dispatch loop never adds a pending operation. -/
theorem runWait_pending_subset (cb : Nat → Int) (es : List Nat) (s : MuxState) :
    (runWait cb s es).pending ⊆ s.pending := by
  induction es generalizing s with
  | nil => exact fun x hx => hx
  | cons e es ih =>
    intro x hx
    simp only [runWait] at hx
    exact dispatch_pending_subset cb s e (ih (dispatch cb s e) hx)

/-- Dispatching keeps the pending list duplicate-free. -/
theorem dispatch_pending_nodup {s : MuxState} (h : s.pending.Nodup) (cb : Nat → Int)
    (i : Nat) : (dispatch cb s i).pending.Nodup := by
  by_cases hc : s.cancelled = true
  · rw [dispatch_of_cancelled hc]; exact h
  · by_cases hm : i ∈ s.pending
    · by_cases h0 : cb i = 0
      · have hd : dispatch cb s i = ⟨s.pending.erase i, i :: s.invoked, false⟩ := by
          simp [dispatch, hc, hm, h0]
        rw [hd]
        exact h.erase i
      · have hd : dispatch cb s i = ⟨[], i :: s.invoked, true⟩ := by
          simp [dispatch, hc, hm, h0]
        rw [hd]
        exact List.nodup_nil
    · simp only [dispatch, hc]
      simp [hm]
      exact h

/-- A callback that returns zero leaves the cancellation flag alone. -/
theorem dispatch_cancelled_of_zero {cb : Nat → Int} {s : MuxState} {i : Nat}
    (h0 : cb i = 0) : (dispatch cb s i).cancelled = s.cancelled := by
  by_cases hc : s.cancelled = true
  · rw [dispatch_of_cancelled hc]
  · by_cases hm : i ∈ s.pending <;> simp [dispatch, hc, hm, h0]

/-- With every callback returning zero, one dispatch step preserves, for each
operation, the number of callback invocations plus pending occurrences. -/
theorem dispatch_count_sum {cb : Nat → Int} (s : MuxState) {e : Nat} (h0 : cb e = 0)
    (i : Nat) :
    (dispatch cb s e).invoked.count i + (dispatch cb s e).pending.count i =
      s.invoked.count i + s.pending.count i := by
  by_cases hc : s.cancelled = true
  · rw [dispatch_of_cancelled hc]
  · by_cases hm : e ∈ s.pending
    · have hd : dispatch cb s e = ⟨s.pending.erase e, e :: s.invoked, false⟩ := by
        simp [dispatch, hc, hm, h0]
      rw [hd]
      by_cases hie : i = e
      · subst hie
        simp only
        rw [List.count_cons_self, List.count_erase_self]
        have hpos : 0 < s.pending.count i := List.count_pos_iff.mpr hm
        omega
      · simp only
        rw [List.count_cons_of_ne hie, List.count_erase_of_ne hie]
    · rw [dispatch, if_neg hc, if_neg hm]

/-- With every callback returning zero, the dispatch loop preserves, for each
operation, the number of callback invocations plus pending occurrences. -/
theorem runWait_count_invariant (cb : Nat → Int) (hcb : ∀ j, cb j = 0) (es : List Nat)
    (i : Nat) : ∀ s : MuxState,
    (runWait cb s es).invoked.count i + (runWait cb s es).pending.count i =
      s.invoked.count i + s.pending.count i := by
  induction es with
  | nil => intro s; rfl
  | cons e es ih =>
    intro s
    simp only [runWait]
    rw [ih (dispatch cb s e)]
    exact dispatch_count_sum s (hcb e) i

/-- With every callback returning zero, every operation whose completion the
engine delivered is no longer pending when the loop ends. -/
theorem runWait_not_mem_pending (cb : Nat → Int) (hcb : ∀ j, cb j = 0) (es : List Nat) :
    ∀ s : MuxState, s.cancelled = false → s.pending.Nodup →
      ∀ i ∈ es, i ∉ (runWait cb s es).pending := by
  induction es with
  | nil =>
    intro s _ _ i hi
    cases hi
  | cons e es ih =>
    intro s hcanc hnd i hi
    simp only [runWait]
    rcases List.mem_cons.mp hi with rfl | hmem
    · have hnotp : i ∉ (dispatch cb s i).pending := by
        by_cases hm : i ∈ s.pending
        · have hd : dispatch cb s i = ⟨s.pending.erase i, i :: s.invoked, false⟩ := by
            simp [dispatch, hcanc, hm, hcb i]
          rw [hd]
          intro hmem'
          exact ((hnd.mem_erase_iff).mp hmem').1 rfl
        · have hd : dispatch cb s i = s := by
            rw [dispatch, if_neg (by simp [hcanc]), if_neg hm]
          rw [hd]
          exact hm
      intro hmem'
      exact hnotp (runWait_pending_subset cb es (dispatch cb s i) hmem')
    · refine ih (dispatch cb s e) ?_ (dispatch_pending_nodup hnd cb e) i hmem
      rw [dispatch_cancelled_of_zero (hcb e), hcanc]

/-- C1: for every set of requests queued before a single `Wait()` call, if no
callback requests cancellation and the engine delivers a completion for each
queued operation, then each queued request's bound callback is invoked
exactly once: never zero times and never more than once. -/
theorem wait_invokes_each_queued_callback_exactly_once (ops sched : List Nat)
    (cb : Nat → Int) (hnodup : ops.Nodup) (hnocancel : ∀ j, cb j = 0)
    (hcomplete : ∀ i ∈ ops, i ∈ sched) :
    ∀ i ∈ ops, (runWait cb (initMux ops) sched).invoked.count i = 1 := by
  intro i hi
  have hsum := runWait_count_invariant cb hnocancel sched i (initMux ops)
  have hnp := runWait_not_mem_pending cb hnocancel sched (initMux ops) rfl hnodup i
    (hcomplete i hi)
  have hpc : (runWait cb (initMux ops) sched).pending.count i = 0 :=
    List.count_eq_zero.mpr hnp
  have hini : (initMux ops).invoked.count i = 0 := rfl
  have hipc : (initMux ops).pending.count i = 1 := List.count_eq_one_of_mem hnodup hi
  omega

/-- Witness for C1: two requests, completions delivered out of queue order
with a duplicate notification; the callback of request 1 runs exactly once. -/
theorem wait_invokes_witness :
    (runWait (fun _ => 0) (initMux [1, 2]) [2, 1, 2]).invoked.count 1 = 1 :=
  wait_invokes_each_queued_callback_exactly_once [1, 2] [2, 1, 2] (fun _ => 0)
    (by decide) (fun j => rfl) (by decide) 1 (by decide)

/-- C2: when a still-pending operation's callback returns non-zero, no other
callback is ever invoked afterwards (the record of invocations gains only
that one entry), every pending operation is released (the active set
empties), and the enclosing `Wait()` returns non-zero. -/
theorem callback_cancellation_halts_dispatch_and_clears_pending (cb : Nat → Int)
    (s : MuxState) (e : Nat) (post : List Nat) (hs : s.cancelled = false)
    (he : e ∈ s.pending) (hcb : cb e ≠ 0) :
    (runWait cb s (e :: post)).invoked = e :: s.invoked ∧
    (runWait cb s (e :: post)).pending = [] ∧
    waitReturn (runWait cb s (e :: post)) ≠ 0 := by
  have hd : dispatch cb s e = ⟨[], e :: s.invoked, true⟩ := by
    simp [dispatch, hs, he, hcb]
  have hr : runWait cb s (e :: post) = ⟨[], e :: s.invoked, true⟩ := by
    simp only [runWait, hd]
    exact runWait_of_cancelled rfl post
  rw [hr]
  refine ⟨rfl, rfl, ?_⟩
  simp [waitReturn]

/-- Witness for C2: two pending requests; the first callback dispatched
returns 1, the second is never invoked and `Wait` reports failure. -/
theorem callback_cancellation_witness :
    (runWait (fun _ => 1) (initMux [5, 6]) [5, 6]).pending = [] ∧
    waitReturn (runWait (fun _ => 1) (initMux [5, 6]) [5, 6]) ≠ 0 := by
  have h := callback_cancellation_halts_dispatch_and_clears_pending (fun _ => 1)
    (initMux [5, 6]) 5 [6] rfl (by decide) (by decide)
  exact ⟨h.2.1, h.2.2⟩

/-- The cancellation flag holds exactly when some already-invoked callback
returned non-zero, and the dispatch loop preserves this. -/
theorem runWait_cancelled_iff (cb : Nat → Int) (es : List Nat) :
    ∀ s : MuxState, (s.cancelled = true ↔ ∃ i ∈ s.invoked, cb i ≠ 0) →
      ((runWait cb s es).cancelled = true ↔
        ∃ i ∈ (runWait cb s es).invoked, cb i ≠ 0) := by
  induction es with
  | nil => intro s h; exact h
  | cons e es ih =>
    intro s h
    simp only [runWait]
    refine ih (dispatch cb s e) ?_
    by_cases hc : s.cancelled = true
    · rw [dispatch_of_cancelled hc]
      exact h
    · by_cases hm : e ∈ s.pending
      · by_cases h0 : cb e = 0
        · have hd : dispatch cb s e = ⟨s.pending.erase e, e :: s.invoked, false⟩ := by
            simp [dispatch, hc, hm, h0]
          rw [hd]
          refine iff_of_false (by simp) ?_
          rintro ⟨i, hi, hne⟩
          rcases List.mem_cons.mp hi with rfl | hmem
          · exact hne h0
          · exact hc (h.mpr ⟨i, hmem, hne⟩)
        · have hd : dispatch cb s e = ⟨[], e :: s.invoked, true⟩ := by
            simp [dispatch, hc, hm, h0]
          rw [hd]
          exact iff_of_true rfl ⟨e, List.mem_cons_self e s.invoked, h0⟩
      · have hd : dispatch cb s e = s := by
          rw [dispatch, if_neg (by simp [hc]), if_neg hm]
        rw [hd]
        exact h

/-- C3: `Wait()` returns zero exactly when every dispatched callback chose to
continue by returning zero (having observed success or a non-fatal failure),
and returns non-zero exactly when some dispatched callback reported a fatal
condition by returning non-zero, which is what triggers cancellation. -/
theorem wait_return_code_characterizes_callback_outcomes (cb : Nat → Int)
    (ops sched : List Nat) :
    (waitReturn (runWait cb (initMux ops) sched) = 0 ↔
      ∀ i ∈ (runWait cb (initMux ops) sched).invoked, cb i = 0) ∧
    (waitReturn (runWait cb (initMux ops) sched) ≠ 0 ↔
      ∃ i ∈ (runWait cb (initMux ops) sched).invoked, cb i ≠ 0) := by
  have hbase : ((initMux ops).cancelled = true ↔ ∃ i ∈ (initMux ops).invoked, cb i ≠ 0) := by
    simp [initMux]
  have hiff := runWait_cancelled_iff cb sched (initMux ops) hbase
  by_cases hc : (runWait cb (initMux ops) sched).cancelled = true
  · have hex := hiff.mp hc
    constructor
    · refine iff_of_false ?_ ?_
      · simp [waitReturn, hc]
      · intro hall
        obtain ⟨i, hi, hne⟩ := hex
        exact hne (hall i hi)
    · refine iff_of_true ?_ hex
      simp [waitReturn, hc]
  · have hnex : ¬∃ i ∈ (runWait cb (initMux ops) sched).invoked, cb i ≠ 0 :=
      fun hex => hc (hiff.mpr hex)
    constructor
    · refine iff_of_true ?_ ?_
      · simp [waitReturn, hc]
      · intro i hi
        by_contra hne
        exact hnex ⟨i, hi, hne⟩
    · refine iff_of_false ?_ hnex
      simp [waitReturn, hc]

end Auracle
